import Mathlib

/-!
Verification of the analytics helper scripts: the statistical power-analysis
routines (`src/utils/power_analysis.py`), the stratified sampling routine
(`src/utils/stratified_sampling.py`) and the query splitting helper
(`src/utils/db_query_utils.py`).

Real-valued numeric code is embedded over `ℝ`.  The two external library
functions from `scipy.stats.norm` — the standard normal survival function
`sf` and its inverse `isf` — are not code of this repository; they are taken
as explicit function parameters `sf isf : ℝ → ℝ` of the embedded
definitions, and the claims that depend on their behaviour carry the
documented property (`sf` is antitone) as a hypothesis.  Python's
`x ** (1 / 2)` on a nonnegative float is embedded as `Real.sqrt`.
-/

namespace PowerAnalysis

/-- Embeds `get_p_value` (power_analysis.py lines 5-27): the z-score is
`mean / sd`, the p-value is `sf |z|`, doubled when `two_sided`. -/
noncomputable def get_p_value (sf : ℝ → ℝ) (mean sd : ℝ) (two_sided : Bool) : ℝ :=
  let z_score := mean / sd
  let p_val := sf |z_score|
  if two_sided then p_val * 2 else p_val

open Classical in
/-- Embeds `get_power` (power_analysis.py lines 30-61). -/
noncomputable def get_power (sf isf : ℝ → ℝ) (p_A p_B se1 se2 : ℝ)
    (two_sided : Bool) (significance : ℝ) : ℝ :=
  let positive := p_A < p_B
  let null_hyp_z_score := isf significance
  if positive ∨ two_sided = false then
    sf ((p_A + se1 * null_hyp_z_score - p_B) / se2)
  else
    sf ((p_B + se2 * null_hyp_z_score - p_A) / se1)

open Classical in
/-- Embeds `get_p_val_and_power` (power_analysis.py lines 64-122).
Returns `(p_value, power, result_is_significant)`. -/
noncomputable def get_p_val_and_power (sf isf : ℝ → ℝ) (nobs_A : ℕ)
    (p_A min_detect_effect : ℝ) (nobs_B : Option ℕ) (two_sided : Bool)
    (statistical_significance min_power : ℝ) : ℝ × ℝ × Bool :=
  let nobsB : ℕ := nobs_B.getD nobs_A
  let p_B := p_A + min_detect_effect
  let significance :=
    if two_sided then statistical_significance / 2 else statistical_significance
  let se1 := Real.sqrt (p_A * (1 - p_A) / nobs_A)
  let se2 := Real.sqrt (p_B * (1 - p_B) / nobsB)
  let sd_of_sum := Real.sqrt (se1 ^ 2 + se2 ^ 2)
  let d_hat := p_B - p_A
  let p_value := get_p_value sf d_hat sd_of_sum two_sided
  let power := get_power sf isf p_A p_B se1 se2 two_sided significance
  (p_value, power, decide (min_power ≤ power ∧ p_value ≤ statistical_significance))

/-- Python's `range(start, stop, step)` for a positive step. -/
def pyRange (start stop step : ℕ) : List ℕ :=
  List.range' start ((stop - start + step - 1) / step) step

/-- Embeds `calculate_min_sample_size` (power_analysis.py lines 125-165):
scan `range(step_size, max_feasible_observations, step_size)` and return the
first candidate whose `get_p_val_and_power` result is significant, `None`
when no candidate qualifies. -/
noncomputable def calculate_min_sample_size (sf isf : ℝ → ℝ)
    (p_A min_detect_effect : ℝ) (step_size max_feasible_observations : ℕ)
    (two_sided : Bool) (statistical_significance min_power : ℝ) : Option ℕ :=
  (pyRange step_size max_feasible_observations step_size).find? fun nobs =>
    (get_p_val_and_power sf isf nobs p_A min_detect_effect none two_sided
      statistical_significance min_power).2.2

/-- `List.find?` on a strictly sorted list returns exactly the least element
satisfying the predicate. -/
theorem find?_eq_some_iff_first {p : ℕ → Bool} {n : ℕ} :
    ∀ {l : List ℕ}, l.Pairwise (· < ·) →
      (l.find? p = some n ↔
        n ∈ l ∧ p n = true ∧ ∀ m ∈ l, m < n → p m = false) := by
  intro l
  induction l with
  | nil => simp
  | cons a t ih =>
    intro hp
    rcases List.pairwise_cons.mp hp with ⟨ha, ht⟩
    cases hpa : p a with
    | true =>
      rw [List.find?_cons_of_pos _ hpa]
      constructor
      · rintro h
        have hn : a = n := by simpa using h
        subst hn
        refine ⟨List.mem_cons_self _ _, hpa, ?_⟩
        intro m hm hlt
        rcases List.mem_cons.mp hm with rfl | hmt
        · exact absurd hlt (lt_irrefl _)
        · exact absurd hlt (not_lt.mpr (ha m hmt).le)
      · rintro ⟨hmem, hpn, hmin⟩
        rcases List.mem_cons.mp hmem with rfl | hnt
        · rfl
        · have : a < n := ha n hnt
          have := hmin a (List.mem_cons_self _ _) this
          rw [hpa] at this
          cases this
    | false =>
      rw [List.find?_cons_of_neg _ (by simp [hpa])]
      rw [ih ht]
      constructor
      · rintro ⟨hnt, hpn, hmin⟩
        refine ⟨List.mem_cons_of_mem _ hnt, hpn, ?_⟩
        intro m hm hlt
        rcases List.mem_cons.mp hm with rfl | hmt
        · exact hpa
        · exact hmin m hmt hlt
      · rintro ⟨hmem, hpn, hmin⟩
        rcases List.mem_cons.mp hmem with rfl | hnt
        · rw [hpa] at hpn; cases hpn
        · exact ⟨hnt, hpn, fun m hm hlt => hmin m (List.mem_cons_of_mem _ hm) hlt⟩

theorem pyRange_pairwise {start stop step : ℕ} (h : 0 < step) :
    (pyRange start stop step).Pairwise (· < ·) :=
  List.pairwise_lt_range' _ _ step h

/-- The significance flag returned by `get_p_val_and_power` holds exactly when
the returned power reaches `min_power` and the returned p-value is at most
`statistical_significance`. -/
theorem get_p_val_and_power_flag (sf isf : ℝ → ℝ) (nobs_A : ℕ)
    (p_A mde : ℝ) (nobs_B : Option ℕ) (ts : Bool) (ss mp : ℝ) :
    (get_p_val_and_power sf isf nobs_A p_A mde nobs_B ts ss mp).2.2 = true ↔
      (mp ≤ (get_p_val_and_power sf isf nobs_A p_A mde nobs_B ts ss mp).2.1 ∧
       (get_p_val_and_power sf isf nobs_A p_A mde nobs_B ts ss mp).1 ≤ ss) := by
  simp [get_p_val_and_power]

/-- C1: `calculate_min_sample_size` returns `some n` exactly when `n` is the
first candidate of the linear scan over multiples of `step_size` below
`max_feasible_observations` whose computed power reaches `min_power` and whose
computed p-value is at most the significance threshold; it returns `none`
exactly when no scanned candidate qualifies. -/
theorem calculate_min_sample_size_first_qualifying (sf isf : ℝ → ℝ)
    (p_A mde ss mp : ℝ) (step_size maxObs : ℕ) (ts : Bool)
    (hstep : 0 < step_size) :
    (∀ n : ℕ,
      calculate_min_sample_size sf isf p_A mde step_size maxObs ts ss mp
          = some n ↔
        (n ∈ pyRange step_size maxObs step_size ∧
         (mp ≤ (get_p_val_and_power sf isf n p_A mde none ts ss mp).2.1 ∧
          (get_p_val_and_power sf isf n p_A mde none ts ss mp).1 ≤ ss) ∧
         ∀ m ∈ pyRange step_size maxObs step_size, m < n →
           ¬(mp ≤ (get_p_val_and_power sf isf m p_A mde none ts ss mp).2.1 ∧
             (get_p_val_and_power sf isf m p_A mde none ts ss mp).1 ≤ ss))) ∧
    (calculate_min_sample_size sf isf p_A mde step_size maxObs ts ss mp
        = none ↔
      ∀ m ∈ pyRange step_size maxObs step_size,
        ¬(mp ≤ (get_p_val_and_power sf isf m p_A mde none ts ss mp).2.1 ∧
          (get_p_val_and_power sf isf m p_A mde none ts ss mp).1 ≤ ss)) := by
  constructor
  · intro n
    rw [calculate_min_sample_size,
      find?_eq_some_iff_first (pyRange_pairwise hstep)]
    constructor
    · rintro ⟨hmem, hq, hmin⟩
      refine ⟨hmem, (get_p_val_and_power_flag sf isf n p_A mde none ts ss mp).mp hq, ?_⟩
      intro m hm hlt hq'
      have := hmin m hm hlt
      rw [(get_p_val_and_power_flag sf isf m p_A mde none ts ss mp).mpr hq'] at this
      cases this
    · rintro ⟨hmem, hq, hmin⟩
      refine ⟨hmem, (get_p_val_and_power_flag sf isf n p_A mde none ts ss mp).mpr hq, ?_⟩
      intro m hm hlt
      by_contra hne
      exact hmin m hm hlt
        ((get_p_val_and_power_flag sf isf m p_A mde none ts ss mp).mp
          (by simpa using hne))
  · rw [calculate_min_sample_size, List.find?_eq_none]
    constructor
    · intro h m hm hq
      have := h m hm
      rw [(get_p_val_and_power_flag sf isf m p_A mde none ts ss mp).mpr hq] at this
      exact this rfl
    · intro h m hm
      intro hq
      exact h m hm ((get_p_val_and_power_flag sf isf m p_A mde none ts ss mp).mp hq)

/-- Witness for C1 at concrete inputs: with `sf = isf = 0`, step 100 and bound
150 the scan qualifies its first candidate, 100. -/
theorem calculate_min_sample_size_first_qualifying_witness :
    calculate_min_sample_size (fun _ => 0) (fun _ => 0) (1/2) (1/10) 100 150
        false (1/20) 0 = some 100 := by
  refine ((calculate_min_sample_size_first_qualifying (fun _ => 0) (fun _ => 0)
    (1/2) (1/10) (1/20) 0 100 150 false (by norm_num)).1 100).mpr ⟨?_, ?_, ?_⟩
  · show (100 : ℕ) ∈ pyRange 100 150 100
    decide
  · constructor
    · show (0:ℝ) ≤ (get_p_val_and_power _ _ 100 _ _ none false _ 0).2.1
      simp [get_p_val_and_power, get_power]
    · show (get_p_val_and_power _ _ 100 _ _ none false _ 0).1 ≤ (1/20 : ℝ)
      simp [get_p_val_and_power, get_p_value]
  · intro m hm hlt
    have : m = 100 := by
      have : m ∈ [100] := by
        simpa [pyRange, List.range'] using hm
      simpa using this
    omega

/-- C4: the two-sided p-value is exactly twice the one-sided p-value at the
same mean and (positive) standard deviation, whatever the survival function. -/
theorem get_p_value_two_sided_doubles (sf : ℝ → ℝ) (mean sd : ℝ)
    (hsd : 0 < sd) :
    get_p_value sf mean sd true = 2 * get_p_value sf mean sd false := by
  simp [get_p_value, mul_comm]

/-- Witness for C4 at `mean = 1`, `sd = 2`. -/
theorem get_p_value_two_sided_doubles_witness :
    (0:ℝ) < 2 ∧
      get_p_value (fun x => x) 1 2 true
        = 2 * get_p_value (fun x => x) 1 2 false :=
  ⟨by norm_num, get_p_value_two_sided_doubles (fun x => x) 1 2 (by norm_num)⟩

/-- Algebraic decomposition of the power formula's z-argument: for
`0 < q < 1`, `(a - q)/√(q(1-q)) = a·√(1-q)/√q - (1-a)·√q/√(1-q)`. -/
theorem sqrt_ratio_decomp {a q : ℝ} (h0 : 0 < q) (h1 : q < 1) :
    (a - q) / Real.sqrt (q * (1 - q)) =
      a * (Real.sqrt (1 - q) / Real.sqrt q) -
        (1 - a) * (Real.sqrt q / Real.sqrt (1 - q)) := by
  have hq : 0 < Real.sqrt q := Real.sqrt_pos.mpr h0
  have h1q : 0 < Real.sqrt (1 - q) := Real.sqrt_pos.mpr (by linarith)
  have hqq : Real.sqrt q * Real.sqrt q = q := Real.mul_self_sqrt h0.le
  have h1q1 : Real.sqrt (1 - q) * Real.sqrt (1 - q) = 1 - q :=
    Real.mul_self_sqrt (by linarith)
  rw [Real.sqrt_mul h0.le]
  field_simp
  linear_combination (-a) * h1q1 + (1 - a) * hqq

/-- For `0 ≤ a ≤ 1` the map `q ↦ (a - q)/√(q(1-q))` is antitone on `(0, 1)`. -/
theorem sqrt_ratio_antitone {a q1 q2 : ℝ} (ha0 : 0 ≤ a) (ha1 : a ≤ 1)
    (h1 : 0 < q1) (h12 : q1 ≤ q2) (h2 : q2 < 1) :
    (a - q2) / Real.sqrt (q2 * (1 - q2)) ≤
      (a - q1) / Real.sqrt (q1 * (1 - q1)) := by
  have h1' : q1 < 1 := lt_of_le_of_lt h12 h2
  have h2' : 0 < q2 := lt_of_lt_of_le h1 h12
  rw [sqrt_ratio_decomp h1 h1', sqrt_ratio_decomp h2' h2]
  have hu : Real.sqrt (1 - q2) / Real.sqrt q2 ≤
      Real.sqrt (1 - q1) / Real.sqrt q1 :=
    div_le_div (Real.sqrt_nonneg _) (Real.sqrt_le_sqrt (by linarith))
      (Real.sqrt_pos.mpr h1) (Real.sqrt_le_sqrt h12)
  have hv : Real.sqrt q1 / Real.sqrt (1 - q1) ≤
      Real.sqrt q2 / Real.sqrt (1 - q2) :=
    div_le_div (Real.sqrt_nonneg _) (Real.sqrt_le_sqrt h12)
      (Real.sqrt_pos.mpr (by linarith)) (Real.sqrt_le_sqrt (by linarith))
  have h₁ := mul_le_mul_of_nonneg_left hu ha0
  have h₂ := mul_le_mul_of_nonneg_left hv (by linarith : (0:ℝ) ≤ 1 - a)
  linarith

/-- The power component returned by `get_p_val_and_power` for a one-sided
test, in closed form. -/
theorem power_one_sided_eq (sf isf : ℝ → ℝ) (nA nB : ℕ) (p_A e ss mp : ℝ) :
    (get_p_val_and_power sf isf nA p_A e (some nB) false ss mp).2.1 =
      sf ((p_A + Real.sqrt (p_A * (1 - p_A) / nA) * isf ss - (p_A + e)) /
        Real.sqrt ((p_A + e) * (1 - (p_A + e)) / nB)) := by
  simp [get_p_val_and_power, get_power]

/-- C3 counterexample: the power computed by `get_p_val_and_power` is not
monotone in the minimum detectable effect.  With an antitone survival
function, one observation per group, baseline `p_A = 1/2` and a positive
null-hypothesis z-score, the effect `2/5` yields strictly lower power than
the smaller effect `3/10`. -/
theorem power_not_monotone_in_effect_cex :
    Antitone (fun x : ℝ => -x) ∧ (3/10 : ℝ) ≤ 2/5 ∧
      (get_p_val_and_power (fun x => -x) (fun _ => 2) 1 (1/2) (2/5) (some 1)
          false (1/20) (4/5)).2.1 <
        (get_p_val_and_power (fun x => -x) (fun _ => 2) 1 (1/2) (3/10) (some 1)
          false (1/20) (4/5)).2.1 := by
  refine ⟨fun _ _ h => neg_le_neg h, by norm_num, ?_⟩
  rw [power_one_sided_eq, power_one_sided_eq]
  have h1 : Real.sqrt ((1/2 : ℝ) * (1 - 1/2) / ((1:ℕ):ℝ)) = 1/2 := by
    rw [show ((1/2 : ℝ) * (1 - 1/2) / ((1:ℕ):ℝ)) = (1/2)^2 by norm_num,
      Real.sqrt_sq (by norm_num)]
  have h2 : Real.sqrt (((1:ℝ)/2 + 3/10) * (1 - (1/2 + 3/10)) / ((1:ℕ):ℝ))
      = 2/5 := by
    rw [show (((1:ℝ)/2 + 3/10) * (1 - (1/2 + 3/10)) / ((1:ℕ):ℝ)) = (2/5)^2
      by norm_num, Real.sqrt_sq (by norm_num)]
  have h3 : Real.sqrt (((1:ℝ)/2 + 2/5) * (1 - (1/2 + 2/5)) / ((1:ℕ):ℝ))
      = 3/10 := by
    rw [show (((1:ℝ)/2 + 2/5) * (1 - (1/2 + 2/5)) / ((1:ℕ):ℝ)) = (3/10)^2
      by norm_num, Real.sqrt_sq (by norm_num)]
  rw [h1, h2, h3]
  norm_num

/-- C3 amended: for a one-sided test with an antitone survival function, a
nonnegative null-hypothesis z-score, and effects kept in the region where
`p_B = p_A + e` stays below `1` and the crossover point
`p_A + se1 * isf(significance)` does not exceed `1`, the computed power is
monotonically non-decreasing in the minimum detectable effect. -/
theorem power_monotone_in_effect (sf isf : ℝ → ℝ) (hsf : Antitone sf)
    (nA nB : ℕ) (p_A e1 e2 ss mp : ℝ)
    (hz : 0 ≤ isf ss) (hpA : 0 < p_A)
    (he1 : 0 ≤ e1) (he12 : e1 ≤ e2) (he2 : p_A + e2 < 1)
    (hc : p_A + Real.sqrt (p_A * (1 - p_A) / nA) * isf ss ≤ 1) :
    (get_p_val_and_power sf isf nA p_A e1 (some nB) false ss mp).2.1 ≤
      (get_p_val_and_power sf isf nA p_A e2 (some nB) false ss mp).2.1 := by
  rw [power_one_sided_eq, power_one_sided_eq]
  apply hsf
  set c := Real.sqrt (p_A * (1 - p_A) / nA) * isf ss with hcdef
  have hc0 : 0 ≤ c := mul_nonneg (Real.sqrt_nonneg _) hz
  have hq1 : 0 < p_A + e1 := by linarith
  have hq12 : p_A + e1 ≤ p_A + e2 := by linarith
  have hQ1 : (0:ℝ) ≤ (p_A + e1) * (1 - (p_A + e1)) := by nlinarith
  have hQ2 : (0:ℝ) ≤ (p_A + e2) * (1 - (p_A + e2)) := by nlinarith
  rw [Real.sqrt_div hQ1 _, Real.sqrt_div hQ2 _, div_div_eq_mul_div,
    div_div_eq_mul_div]
  have key : (p_A + c - (p_A + e2)) / Real.sqrt ((p_A + e2) * (1 - (p_A + e2)))
      ≤ (p_A + c - (p_A + e1)) / Real.sqrt ((p_A + e1) * (1 - (p_A + e1))) := by
    have h1 := sqrt_ratio_antitone (a := p_A + c) (by linarith) hc hq1 hq12 he2
    have e1eq : p_A + c - (p_A + e1) = (p_A + c) - (p_A + e1) := by ring
    have e2eq : p_A + c - (p_A + e2) = (p_A + c) - (p_A + e2) := by ring
    rw [e1eq, e2eq]
    exact h1
  calc (p_A + c - (p_A + e2)) * Real.sqrt nB /
        Real.sqrt ((p_A + e2) * (1 - (p_A + e2)))
      = Real.sqrt nB * ((p_A + c - (p_A + e2)) /
          Real.sqrt ((p_A + e2) * (1 - (p_A + e2)))) := by ring
    _ ≤ Real.sqrt nB * ((p_A + c - (p_A + e1)) /
          Real.sqrt ((p_A + e1) * (1 - (p_A + e1)))) :=
        mul_le_mul_of_nonneg_left key (Real.sqrt_nonneg _)
    _ = (p_A + c - (p_A + e1)) * Real.sqrt nB /
          Real.sqrt ((p_A + e1) * (1 - (p_A + e1))) := by ring

/-- Witness for the amended C3 at concrete inputs. -/
theorem power_monotone_in_effect_witness :
    (get_p_val_and_power (fun x => -x) (fun _ => 0) 4 (1/2) 0 (some 1)
        false (1/20) 0).2.1 ≤
      (get_p_val_and_power (fun x => -x) (fun _ => 0) 4 (1/2) (1/4) (some 1)
        false (1/20) 0).2.1 :=
  power_monotone_in_effect (fun x => -x) (fun _ => 0)
    (fun _ _ h => neg_le_neg h) 4 1 (1/2) 0 (1/4) (1/20) 0
    le_rfl (by norm_num) le_rfl (by norm_num) (by norm_num) (by norm_num)

end PowerAnalysis

namespace DBQueryUtils

/-- Python's substring test `needle in hay`, on character lists. -/
def containsSubList (needle : List Char) : List Char → Bool
  | [] => needle.isEmpty
  | c :: rest => needle.isPrefixOf (c :: rest) || containsSubList needle rest

/-- Python's `needle in hay` on strings. -/
def strContainsSub (hay needle : String) : Bool :=
  containsSubList needle.data hay.data

/-- A line containing the marker `"SUB_QUERY"`. -/
def isSubQueryLine (line : String) : Bool := strContainsSub line "SUB_QUERY"

/-- A line containing `"BASE_QUERY"` or `"QUERY_STEP"`. -/
def isStepLine (line : String) : Bool :=
  strContainsSub line "BASE_QUERY" || strContainsSub line "QUERY_STEP"

/-- `[i for i, e in enumerate(q) if p e]` with indices starting at `i0`. -/
def markerIdxs (p : String → Bool) : List String → ℕ → List ℕ
  | [], _ => []
  | x :: xs, i =>
    if p x then i :: markerIdxs p xs (i + 1) else markerIdxs p xs (i + 1)

/-- Python's slice `l[a:b]`, `b = none` meaning "to the end". -/
def pySlice {α : Type} (l : List α) (a : ℕ) (b : Option ℕ) : List α :=
  match b with
  | none => l.drop a
  | some b => (l.take b).drop a

/-- Embeds `DBQuery.__process_steps` (db_query_utils.py lines 130-150): find
the lines containing `BASE_QUERY` or `QUERY_STEP`, pair the first such index
with each later one (and the end), slice and join. -/
def processSteps (q : List String) : List String :=
  let steps := markerIdxs isStepLine q 0
  let pairs : List (ℕ × Option ℕ) :=
    match steps with
    | [] => [(0, none)]
    | base :: rest => (rest.map some ++ [none]).map fun s => (base, s)
  pairs.map fun ab => String.join (pySlice q ab.1 ab.2)

/-- Embeds `DBQuery.__process_subqueries` (db_query_utils.py lines 152-166):
split at the lines containing `SUB_QUERY`, then process each group's steps. -/
def processSubqueries (qry : List String) : List (List String) :=
  let sub_queries := markerIdxs isSubQueryLine qry 0
  let pairs := sub_queries.zip (sub_queries.tail.map some ++ [none])
  (pairs.map fun ab => pySlice qry ab.1 ab.2).map processSteps

/-- The `DBQuery` state relevant to query preprocessing: the query text
source (the file's lines when `by_file`, else the literal `raw_qry` string)
and the processed `qry` field. -/
structure DBQueryState where
  by_file : Bool
  fileLines : List String
  raw_qry : String
  by_steps : Bool
  qry : List (List String)

/-- The lines read by `__populate_query`: the file content when `by_file`,
otherwise `raw_qry.split("\n")`. -/
def queryLines (s : DBQueryState) : List String :=
  if s.by_file then s.fileLines else s.raw_qry.splitOn "\n"

/-- Embeds `DBQuery.__populate_query` (db_query_utils.py lines 117-128) as a
state transformer recomputing `qry` from the text source. -/
def populateQuery (s : DBQueryState) : DBQueryState :=
  { s with
    qry :=
      if s.by_steps then processSubqueries (queryLines s)
      else [[String.join (queryLines s)]] }

/-- Embeds the step execution of `DBQuery.run` (db_query_utils.py lines
224-245): re-populate the query, then execute every step of every group in
order; `exec` stands for `__run_query_step`. -/
def runResults {α : Type} (exec : String → α) (s : DBQueryState) : List α :=
  ((populateQuery s).qry.flatten).map exec

/-- Embeds the front of `DBQuery.__init__` (db_query_utils.py lines 50-103):
the assertion that a file name or a literal query is provided, then the
loading and preprocessing of the query text.  `readFile` stands for reading
the file found at the computed path. -/
def dbQueryInit (readFile : String → List String)
    (file_name query : Option String) (by_steps : Bool) :
    Except String (List (List String)) :=
  if file_name = none ∧ query = none then
    Except.error "Either file_name or query must be provided."
  else
    let lines :=
      match file_name with
      | some f => readFile f
      | none => (query.getD "").splitOn "\n"
    Except.ok (if by_steps then processSubqueries lines
      else [[String.join lines]])

/-- C5: query splitting is deterministic and idempotent: re-running
`__populate_query` on an unchanged text source leaves the processed `qry`
unchanged. -/
theorem populateQuery_idempotent (s : DBQueryState) :
    populateQuery (populateQuery s) = populateQuery s := rfl

/-- C7: the constructor assertion fires exactly when both `file_name` and
`query` are omitted. -/
theorem dbQueryInit_assert_iff (readFile : String → List String)
    (file_name query : Option String) (by_steps : Bool) :
    dbQueryInit readFile file_name query by_steps =
        Except.error "Either file_name or query must be provided." ↔
      (file_name = none ∧ query = none) := by
  unfold dbQueryInit
  split
  · simp_all
  · simp_all

theorem markerIdxs_eq_nil {p : String → Bool} {l : List String}
    (h : ∀ x ∈ l, p x = false) : ∀ i, markerIdxs p l i = [] := by
  induction l with
  | nil => intro i; rfl
  | cons x xs ih =>
    intro i
    have hx : p x = false := h x (List.mem_cons_self _ _)
    simp only [markerIdxs, hx]
    simpa using ih (fun y hy => h y (List.mem_cons_of_mem _ hy)) (i + 1)

theorem markerIdxs_shift (p : String → Bool) (l : List String) :
    ∀ k, markerIdxs p l k = (markerIdxs p l 0).map (· + k) := by
  induction l with
  | nil => intro k; rfl
  | cons x xs ih =>
    intro k
    cases hx : p x with
    | true =>
      have e1 : markerIdxs p (x :: xs) k = k :: markerIdxs p xs (k + 1) := by
        simp [markerIdxs, hx]
      have e0 : markerIdxs p (x :: xs) 0 = 0 :: markerIdxs p xs 1 := by
        simp [markerIdxs, hx]
      rw [e1, e0, List.map_cons, ih (k + 1), ih 1, List.map_map]
      refine congrArg₂ _ (by omega) (List.map_congr_left fun a _ => ?_)
      show a + (k + 1) = a + 1 + k
      omega
    | false =>
      have e1 : markerIdxs p (x :: xs) k = markerIdxs p xs (k + 1) := by
        simp [markerIdxs, hx]
      have e0 : markerIdxs p (x :: xs) 0 = markerIdxs p xs 1 := by
        simp [markerIdxs, hx]
      rw [e1, e0, ih (k + 1), ih 1, List.map_map]
      refine List.map_congr_left fun a _ => ?_
      show a + (k + 1) = a + 1 + k
      omega

theorem markerIdxs_append (p : String → Bool) (l₁ l₂ : List String) :
    ∀ i, markerIdxs p (l₁ ++ l₂) i =
      markerIdxs p l₁ i ++ markerIdxs p l₂ (i + l₁.length) := by
  induction l₁ with
  | nil => intro i; simp [markerIdxs]
  | cons x xs ih =>
    intro i
    have harith : i + 1 + xs.length = i + (x :: xs).length := by
      simp
      omega
    cases hx : p x with
    | true =>
      have e1 : markerIdxs p ((x :: xs) ++ l₂) i =
          i :: markerIdxs p (xs ++ l₂) (i + 1) := by
        simp [markerIdxs, hx]
      have e2 : markerIdxs p (x :: xs) i = i :: markerIdxs p xs (i + 1) := by
        simp [markerIdxs, hx]
      rw [e1, e2, ih (i + 1), harith, List.cons_append]
    | false =>
      have e1 : markerIdxs p ((x :: xs) ++ l₂) i =
          markerIdxs p (xs ++ l₂) (i + 1) := by
        simp [markerIdxs, hx]
      have e2 : markerIdxs p (x :: xs) i = markerIdxs p xs (i + 1) := by
        simp [markerIdxs, hx]
      rw [e1, e2, ih (i + 1), harith]

theorem drop_append_shift {α : Type} (pre l : List α) (a : ℕ) :
    (pre ++ l).drop (a + pre.length) = l.drop a := by
  rw [List.drop_append_eq_append_drop,
    List.drop_eq_nil_of_le (by omega : pre.length ≤ a + pre.length),
    List.nil_append]
  congr 1
  omega

theorem take_append_shift {α : Type} (pre l : List α) (b : ℕ) :
    (pre ++ l).take (b + pre.length) = pre ++ l.take b := by
  induction pre with
  | nil => simp
  | cons x xs ih =>
    have : b + (x :: xs).length = (b + xs.length) + 1 := by simp; omega
    rw [this]
    simpa using ih

theorem pySlice_shift {α : Type} (pre lines : List α) (a : ℕ) (b : Option ℕ) :
    pySlice (pre ++ lines) (a + pre.length) (b.map (· + pre.length)) =
      pySlice lines a b := by
  cases b with
  | none => exact drop_append_shift pre lines a
  | some b =>
    simp only [pySlice, Option.map_some']
    rw [take_append_shift, drop_append_shift pre (lines.take b) a]

theorem processSubqueries_eq_nil {lines : List String}
    (h : ∀ x ∈ lines, isSubQueryLine x = false) :
    processSubqueries lines = [] := by
  unfold processSubqueries
  rw [markerIdxs_eq_nil h 0]
  rfl

theorem processSubqueries_drop_head (pre lines : List String)
    (h : ∀ x ∈ pre, isSubQueryLine x = false) :
    processSubqueries (pre ++ lines) = processSubqueries lines := by
  unfold processSubqueries
  rw [markerIdxs_append _ _ _ 0, markerIdxs_eq_nil h 0, List.nil_append,
    markerIdxs_shift _ _ (0 + pre.length)]
  simp only [Nat.zero_add]
  cases hsubs : markerIdxs isSubQueryLine lines 0 with
  | nil => simp
  | cons a t =>
    have hz : (((a :: t).map (· + pre.length)).zip
        (((a :: t).map (· + pre.length)).tail.map some ++ [none])) =
        ((a :: t).zip ((a :: t).tail.map some ++ [none])).map
          (Prod.map (· + pre.length) (Option.map (· + pre.length))) := by
      have h2 : ((t.map (· + pre.length)).map some ++ [none]) =
          ((t.map some ++ [none]).map (Option.map (· + pre.length))) := by
        simp [List.map_map]
      simp only [List.map_cons, List.tail_cons]
      rw [h2, ← List.map_cons (· + pre.length) a t, List.zip_map]
    rw [hz]
    simp only [List.map_map]
    refine List.map_congr_left fun ab _ => ?_
    show processSteps
        (pySlice (pre ++ lines) (ab.1 + pre.length)
          (Option.map (· + pre.length) ab.2)) =
      processSteps (pySlice lines ab.1 ab.2)
    rw [pySlice_shift]

/-- C8: when the query is processed by steps and no line contains
`"SUB_QUERY"`, the processed query is the empty list of groups, so
`DBQuery.run` executes no step and returns an empty list; more generally,
lines before the first `SUB_QUERY` line are discarded: they do not affect
the processed output at all. -/
theorem no_subquery_runs_nothing :
    (∀ (s : DBQueryState) (α : Type) (exec : String → α),
      s.by_steps = true →
      (∀ l ∈ queryLines s, isSubQueryLine l = false) →
      (populateQuery s).qry = [] ∧ runResults exec s = []) ∧
    (∀ pre lines : List String, (∀ l ∈ pre, isSubQueryLine l = false) →
      processSubqueries (pre ++ lines) = processSubqueries lines) := by
  constructor
  · intro s α exec hsteps hnone
    have hq : (populateQuery s).qry = [] := by
      simp [populateQuery, hsteps, processSubqueries_eq_nil hnone]
    exact ⟨hq, by simp [runResults, hq]⟩
  · exact fun pre lines h => processSubqueries_drop_head pre lines h

/-- Witness for C8 at a concrete query state and a concrete line list. -/
theorem no_subquery_runs_nothing_witness :
    ((populateQuery ⟨true, ["SELECT 1"], "", true, []⟩).qry = [] ∧
      runResults (fun x => x) ⟨true, ["SELECT 1"], "", true, []⟩ = []) ∧
    processSubqueries (["-- header"] ++ ["SUB_QUERY a"]) =
      processSubqueries ["SUB_QUERY a"] :=
  ⟨no_subquery_runs_nothing.1 ⟨true, ["SELECT 1"], "", true, []⟩ String
      (fun x => x) rfl (by decide),
   no_subquery_runs_nothing.2 ["-- header"] ["SUB_QUERY a"] (by decide)⟩

theorem join_foldl_acc :
    ∀ (l : List String) (acc : String),
      l.foldl (fun r s => r ++ s) acc = acc ++ l.foldl (fun r s => r ++ s) "" := by
  intro l
  induction l with
  | nil => intro acc; exact (String.append_empty acc).symm
  | cons x xs ih =>
    intro acc
    show xs.foldl _ (acc ++ x) = acc ++ xs.foldl _ ("" ++ x)
    rw [ih (acc ++ x), ih ("" ++ x), String.empty_append,
      String.append_assoc]

theorem join_append (l₁ l₂ : List String) :
    String.join (l₁ ++ l₂) = String.join l₁ ++ String.join l₂ := by
  show (l₁ ++ l₂).foldl _ "" = l₁.foldl _ "" ++ l₂.foldl _ ""
  rw [List.foldl_append, join_foldl_acc l₂ (l₁.foldl _ "")]

theorem drop_take_append {α : Type} (l : List α) (a b : ℕ) :
    (l.take b).drop a ++ l.drop (max a b) = l.drop a := by
  rcases le_total b a with hba | hab
  · have h1 : (l.take b).drop a = [] :=
      List.drop_eq_nil_of_le (by rw [List.length_take]; omega)
    rw [h1, List.nil_append, max_eq_left hba]
  · rcases le_or_lt a l.length with hal | hal
    · rw [max_eq_right hab]
      conv_rhs => rw [← List.take_append_drop b l]
      rw [List.drop_append_eq_append_drop, List.length_take]
      have h0 : a - (b ⊓ l.length) = 0 := by omega
      rw [h0, List.drop_zero]
    · have h1 : (l.take b).drop a = [] :=
        List.drop_eq_nil_of_le (by rw [List.length_take]; omega)
      have h2 : l.drop (max a b) = [] := List.drop_eq_nil_of_le (by omega)
      have h3 : l.drop a = [] := List.drop_eq_nil_of_le (by omega)
      rw [h1, h2, h3, List.nil_append]

/-- Order on slice end indices, `none` (slice to the end) being largest. -/
def optLe : Option ℕ → Option ℕ → Prop
  | some b1, some b2 => b1 ≤ b2
  | _, none => True
  | none, some _ => False

theorem pySlice_append_ex {α : Type} (q : List α) (base : ℕ) :
    ∀ e1 e2 : Option ℕ, optLe e1 e2 →
      ∃ w, pySlice q base e1 ++ w = pySlice q base e2 := by
  intro e1 e2 h
  match e1, e2, h with
  | some b1, some b2, h =>
    refine ⟨(q.take b2).drop (max base b1), ?_⟩
    have ht : (q.take b2).take b1 = q.take b1 := by
      rw [List.take_take, min_eq_left h]
    calc (pySlice q base (some b1)) ++ (q.take b2).drop (max base b1)
        = ((q.take b2).take b1).drop base ++ (q.take b2).drop (max base b1) := by
          rw [pySlice, ht]
      _ = (q.take b2).drop base := drop_take_append (q.take b2) base b1
      _ = pySlice q base (some b2) := rfl
  | some b1, none, _ =>
    exact ⟨q.drop (max base b1), drop_take_append q base b1⟩
  | none, none, _ => exact ⟨[], List.append_nil _⟩

theorem join_pySlice_pre {q : List String} {base : ℕ} {e1 e2 : Option ℕ}
    (h : optLe e1 e2) :
    ∃ t, String.join (pySlice q base e1) ++ t =
      String.join (pySlice q base e2) := by
  obtain ⟨w, hw⟩ := pySlice_append_ex q base e1 e2 h
  exact ⟨String.join w, by rw [← hw, join_append]⟩

theorem markerIdxs_ge {p : String → Bool} :
    ∀ (l : List String) (i : ℕ), ∀ x ∈ markerIdxs p l i, i ≤ x := by
  intro l
  induction l with
  | nil => intro i x hx; cases hx
  | cons y ys ih =>
    intro i x hx
    cases hy : p y with
    | true =>
      have e : markerIdxs p (y :: ys) i = i :: markerIdxs p ys (i + 1) := by
        simp [markerIdxs, hy]
      rw [e] at hx
      rcases List.mem_cons.mp hx with rfl | hx'
      · exact le_refl _
      · exact le_trans (by omega) (ih (i + 1) x hx')
    | false =>
      have e : markerIdxs p (y :: ys) i = markerIdxs p ys (i + 1) := by
        simp [markerIdxs, hy]
      rw [e] at hx
      exact le_trans (by omega) (ih (i + 1) x hx)

theorem markerIdxs_pairwise {p : String → Bool} :
    ∀ (l : List String) (i : ℕ), (markerIdxs p l i).Pairwise (· < ·) := by
  intro l
  induction l with
  | nil => intro i; exact List.Pairwise.nil
  | cons y ys ih =>
    intro i
    cases hy : p y with
    | true =>
      have e : markerIdxs p (y :: ys) i = i :: markerIdxs p ys (i + 1) := by
        simp [markerIdxs, hy]
      rw [e]
      exact List.Pairwise.cons
        (fun x hx => lt_of_lt_of_le (by omega) (markerIdxs_ge ys (i + 1) x hx))
        (ih (i + 1))
    | false =>
      have e : markerIdxs p (y :: ys) i = markerIdxs p ys (i + 1) := by
        simp [markerIdxs, hy]
      rw [e]
      exact ih (i + 1)

theorem ends_pairwise {rest : List ℕ} (hp : rest.Pairwise (· < ·)) :
    (rest.map some ++ [none]).Pairwise optLe := by
  rw [List.pairwise_append]
  refine ⟨?_, by simp, ?_⟩
  · rw [List.pairwise_map]
    exact hp.imp fun h => le_of_lt h
  · intro a ha b hb
    simp only [List.mem_singleton] at hb
    subst hb
    rcases List.mem_map.mp ha with ⟨x, _, rfl⟩
    trivial

/-- C9: every step produced by `__process_steps` starts at the first line
containing `BASE_QUERY` or `QUERY_STEP` (the group's start when there is no
marker), so each earlier step is a string prefix of every later step, and
the last step spans from that first marker to the end of the group. -/
theorem processSteps_common_base (q : List String) :
    (∀ i j : ℕ, i ≤ j → j < (processSteps q).length →
      ∃ t, (processSteps q).getD i "" ++ t = (processSteps q).getD j "") ∧
    (processSteps q).getLast? =
      some (String.join (q.drop ((markerIdxs isStepLine q 0).headD 0))) := by
  cases hm : markerIdxs isStepLine q 0 with
  | nil =>
    have e : processSteps q = [String.join (q.drop 0)] := by
      simp [processSteps, hm, pySlice]
    constructor
    · intro i j hij hj
      rw [e] at hj ⊢
      have hj0 : j = 0 := by simpa using hj
      have hi0 : i = 0 := by omega
      subst hj0; subst hi0
      exact ⟨"", String.append_empty _⟩
    · rw [e]
      simp
  | cons base rest =>
    have e : processSteps q =
        (rest.map some ++ [none]).map
          (fun s => String.join (pySlice q base s)) := by
      simp [processSteps, hm, List.map_map]
    have hpair : (rest.map some ++ [none]).Pairwise optLe :=
      ends_pairwise (by
        have hmp := markerIdxs_pairwise (p := isStepLine) q 0
        rw [hm] at hmp
        exact (List.pairwise_cons.mp hmp).2)
    constructor
    · intro i j hij hj
      rw [e] at hj ⊢
      set ends := rest.map some ++ [none] with hends
      have hjlen : j < ends.length := by simpa using hj
      have hilen : i < ends.length := lt_of_le_of_lt hij hjlen
      have hgi : ((ends.map (fun s => String.join (pySlice q base s))).getD i "")
          = String.join (pySlice q base (ends.get ⟨i, hilen⟩)) := by
        rw [List.getD_eq_getElem?_getD, List.getElem?_map,
          List.getElem?_eq_getElem hilen]
        simp [List.get_eq_getElem]
      have hgj : ((ends.map (fun s => String.join (pySlice q base s))).getD j "")
          = String.join (pySlice q base (ends.get ⟨j, hjlen⟩)) := by
        rw [List.getD_eq_getElem?_getD, List.getElem?_map,
          List.getElem?_eq_getElem hjlen]
        simp [List.get_eq_getElem]
      rw [hgi, hgj]
      apply join_pySlice_pre
      rcases eq_or_lt_of_le hij with rfl | hlt
      · cases hx : ends.get ⟨i, hilen⟩ <;> simp [optLe]
      · exact List.pairwise_iff_get.mp hpair ⟨i, hilen⟩ ⟨j, hjlen⟩
          (by simpa using hlt)
    · rw [e]
      rw [List.getLast?_map, List.getLast?_concat]
      simp [pySlice]

/-- Witness for C9 on a concrete three-line group with two step markers. -/
theorem processSteps_common_base_witness :
    (∃ t, (processSteps ["BASE_QUERY a", "mid", "QUERY_STEP b"]).getD 0 ""
        ++ t = (processSteps ["BASE_QUERY a", "mid", "QUERY_STEP b"]).getD 1 "")
      ∧
    (processSteps ["BASE_QUERY a", "mid", "QUERY_STEP b"]).getLast? =
      some (String.join (["BASE_QUERY a", "mid", "QUERY_STEP b"].drop
        ((markerIdxs isStepLine ["BASE_QUERY a", "mid", "QUERY_STEP b"]
          0).headD 0))) :=
  ⟨(processSteps_common_base ["BASE_QUERY a", "mid", "QUERY_STEP b"]).1 0 1
      (by decide) (by decide),
   (processSteps_common_base ["BASE_QUERY a", "mid", "QUERY_STEP b"]).2⟩

end DBQueryUtils

namespace StratifiedSampling

/-- Python's built-in `round` (round half to even), used by pandas
`DataFrame.sample(frac=...)`, which draws `round(frac * len)` rows. -/
def pyRound (q : ℚ) : ℤ :=
  if q - ⌊q⌋ < 1/2 then ⌊q⌋
  else if 1/2 < q - ⌊q⌋ then ⌊q⌋ + 1
  else if Even ⌊q⌋ then ⌊q⌋ else ⌊q⌋ + 1

theorem floor_le_pyRound (q : ℚ) : ⌊q⌋ ≤ pyRound q := by
  unfold pyRound
  split
  · exact le_refl _
  · split
    · omega
    · split <;> omega

theorem pyRound_le_ceil (q : ℚ) : pyRound q ≤ ⌈q⌉ := by
  have hup : ¬(q - ⌊q⌋ < 1/2) → ⌊q⌋ + 1 ≤ ⌈q⌉ := by
    intro h
    have hlt : (⌊q⌋ : ℚ) < q := by
      rcases lt_or_eq_of_le (Int.floor_le q) with h' | h'
      · exact h'
      · exact absurd (by rw [← h']; norm_num : q - ⌊q⌋ < 1/2) h
    exact Int.lt_ceil.mpr hlt
  unfold pyRound
  split
  · exact Int.floor_le_ceil q
  · split
    · exact hup (by assumption)
    · split
      · exact le_trans (by omega) (hup (by assumption))
      · exact hup (by assumption)

theorem pyRound_natCast (m : ℕ) : pyRound (m : ℚ) = m := by
  unfold pyRound
  rw [Int.floor_natCast, if_pos]
  norm_num

/-- Product-form bounds for `round(m / k)`. -/
theorem pyRound_div_bounds (m k : ℕ) (hk : 0 < k) :
    (pyRound ((m : ℚ) / (k : ℚ))).toNat ≤ m ∧
    ((pyRound ((m : ℚ) / (k : ℚ))).toNat : ℤ) * k ≤ (m : ℤ) + k - 1 ∧
    (m : ℤ) ≤ ((pyRound ((m : ℚ) / (k : ℚ))).toNat : ℤ) * k + k - 1 := by
  set q : ℚ := (m : ℚ) / (k : ℚ) with hq
  have hkQ : (0 : ℚ) < (k : ℚ) := by exact_mod_cast hk
  have hq0 : 0 ≤ q := div_nonneg (Nat.cast_nonneg m) (Nat.cast_nonneg k)
  have hf0 : 0 ≤ ⌊q⌋ := Int.floor_nonneg.mpr hq0
  have hr0 : 0 ≤ pyRound q := le_trans hf0 (floor_le_pyRound q)
  have htn : ((pyRound q).toNat : ℤ) = pyRound q := Int.toNat_of_nonneg hr0
  have hqk : q * (k : ℚ) = (m : ℚ) := div_mul_cancel₀ _ (ne_of_gt hkQ)
  refine ⟨?_, ?_, ?_⟩
  · have hqm : q ≤ (m : ℚ) := by
      rw [hq, div_le_iff hkQ]
      have h1 : (1 : ℚ) ≤ (k : ℚ) := by exact_mod_cast hk
      nlinarith [Nat.cast_nonneg (α := ℚ) m]
    have := le_trans (pyRound_le_ceil q)
      (le_trans (Int.ceil_le_ceil hqm) (le_of_eq (Int.ceil_natCast m)))
    omega
  · have h1 : (pyRound q : ℚ) < q + 1 := by
      have h2 : ((⌈q⌉ : ℤ) : ℚ) < q + 1 := Int.ceil_lt_add_one q
      have h3 : ((pyRound q : ℤ) : ℚ) ≤ ((⌈q⌉ : ℤ) : ℚ) := by
        exact_mod_cast pyRound_le_ceil q
      linarith
    have h4 : (pyRound q : ℚ) * (k : ℚ) < (m : ℚ) + k := by
      have h5 := mul_lt_mul_of_pos_right h1 hkQ
      rw [add_mul, one_mul, hqk] at h5
      exact h5
    have h6 : (pyRound q) * (k : ℤ) < (m : ℤ) + k := by exact_mod_cast h4
    rw [htn]
    omega
  · have h1 : q - 1 < (pyRound q : ℚ) := by
      have h2 : q - 1 < ((⌊q⌋ : ℤ) : ℚ) := Int.sub_one_lt_floor q
      have h3 : ((⌊q⌋ : ℤ) : ℚ) ≤ ((pyRound q : ℤ) : ℚ) := by
        exact_mod_cast floor_le_pyRound q
      linarith
    have h4 : (m : ℚ) - k < (pyRound q : ℚ) * (k : ℚ) := by
      have h5 := mul_lt_mul_of_pos_right h1 hkQ
      rw [sub_mul, one_mul, hqk] at h5
      exact h5
    have h6 : (m : ℤ) - k < (pyRound q) * (k : ℤ) := by exact_mod_cast h4
    rw [htn]
    omega

/-- `round(m / k)` computed on integers: the same value as
`(pyRound ((m : ℚ) / k)).toNat` (see `pyRoundNat_eq`), in a form the kernel
can evaluate. -/
def pyRoundNat (m k : ℕ) : ℕ :=
  if 2 * (m % k) < k then m / k
  else if k < 2 * (m % k) then m / k + 1
  else if m / k % 2 = 0 then m / k else m / k + 1

theorem pyRoundNat_eq (m k : ℕ) (hk : 0 < k) :
    (pyRoundNat m k : ℤ) = pyRound ((m : ℚ) / (k : ℚ)) := by
  have hkQ : (0 : ℚ) < (k : ℚ) := by exact_mod_cast hk
  have hdm := Nat.div_add_mod m k
  have hmod := Nat.mod_lt m hk
  have hq : ((k : ℚ)) * ((m / k : ℕ) : ℚ) + ((m % k : ℕ) : ℚ) = (m : ℚ) := by
    exact_mod_cast congrArg (Nat.cast : ℕ → ℚ) hdm
  have hq2 : ((m % k : ℕ) : ℚ) < (k : ℚ) := by exact_mod_cast hmod
  have hfloor : ⌊(m : ℚ) / (k : ℚ)⌋ = ((m / k : ℕ) : ℤ) := by
    rw [Int.floor_eq_iff]
    constructor
    · rw [le_div_iff hkQ]
      exact_mod_cast Nat.div_mul_le_self m k
    · rw [div_lt_iff hkQ, Int.cast_natCast]
      nlinarith [hq, hq2]
  have hfrac : (m : ℚ) / k - (((m / k : ℕ) : ℤ) : ℚ) =
      ((m % k : ℕ) : ℚ) / k := by
    rw [Int.cast_natCast, eq_div_iff (ne_of_gt hkQ), sub_mul,
      div_mul_cancel₀ _ (ne_of_gt hkQ)]
    linear_combination -hq
  have hc1 : (((m % k : ℕ) : ℚ) / k < 1/2) ↔ (2 * (m % k) < k) := by
    rw [div_lt_div_iff hkQ (by norm_num : (0:ℚ) < 2), one_mul]
    rw [show ((m % k : ℕ) : ℚ) * 2 = ((m % k * 2 : ℕ) : ℚ) by push_cast; ring]
    rw [Nat.cast_lt]
    omega
  have hc2 : ((1:ℚ)/2 < ((m % k : ℕ) : ℚ) / k) ↔ (k < 2 * (m % k)) := by
    rw [div_lt_div_iff (by norm_num : (0:ℚ) < 2) hkQ, one_mul]
    rw [show ((m % k : ℕ) : ℚ) * 2 = ((m % k * 2 : ℕ) : ℚ) by push_cast; ring]
    rw [Nat.cast_lt]
    omega
  have hpar : (Even ((m / k : ℕ) : ℤ)) ↔ (m / k % 2 = 0) := by
    rw [Int.even_coe_nat, Nat.even_iff]
  unfold pyRound pyRoundNat
  rw [hfloor, hfrac]
  by_cases h1 : 2 * (m % k) < k
  · rw [if_pos h1, if_pos (hc1.mpr h1)]
  · rw [if_neg h1, if_neg (fun hcon => h1 (hc1.mp hcon))]
    by_cases h2 : k < 2 * (m % k)
    · rw [if_pos h2, if_pos (hc2.mpr h2)]
      push_cast
      ring
    · rw [if_neg h2, if_neg (fun hcon => h2 (hc2.mp hcon))]
      by_cases h3 : m / k % 2 = 0
      · rw [if_pos h3, if_pos (hpar.mpr h3)]
      · rw [if_neg h3, if_neg (fun hcon => h3 (hpar.mp hcon))]
        push_cast
        ring

theorem pyRoundNat_one (m : ℕ) : pyRoundNat m 1 = m := by
  simp [pyRoundNat, Nat.mod_one, Nat.div_one]

/-- Product-form bounds for the integer `round(m / k)`. -/
theorem pyRoundNat_bounds (m k : ℕ) (hk : 0 < k) :
    pyRoundNat m k ≤ m ∧
    (pyRoundNat m k : ℤ) * k ≤ (m : ℤ) + k - 1 ∧
    (m : ℤ) ≤ (pyRoundNat m k : ℤ) * k + k - 1 := by
  have h := pyRound_div_bounds m k hk
  have he := pyRoundNat_eq m k hk
  have ht : (pyRound ((m : ℚ) / (k : ℚ))).toNat = pyRoundNat m k := by
    rw [← he, Int.toNat_natCast]
  rw [ht] at h
  exact h

/-- The per-stratum sequence of group sizes drawn by the sampling loop: with
`m` rows left and `k` iterations to go, the next group draws
`round(m / k)` of them. -/
def splitSizes (m : ℕ) : ℕ → List ℕ
  | 0 => []
  | k + 1 =>
    pyRoundNat m (k + 1) :: splitSizes (m - pyRoundNat m (k + 1)) k

/-- Every part of `splitSizes m k` lies in `[lo, lo + 1]` whenever
`lo * k ≤ m ≤ (lo + 1) * k`: the drawn group sizes are balanced to within
one row. -/
theorem splitSizes_bounds :
    ∀ (k m lo : ℕ), lo * k ≤ m → m ≤ (lo + 1) * k →
      ∀ x ∈ splitSizes m k, lo ≤ x ∧ x ≤ lo + 1 := by
  intro k
  induction k with
  | zero => intro m lo _ _ x hx; cases hx
  | succ k ih =>
    intro m lo hlo hhi x hx
    obtain ⟨ham, hup, hlow⟩ := pyRoundNat_bounds m (k + 1) (by omega)
    set a := pyRoundNat m (k + 1) with ha
    rw [splitSizes] at hx
    have hkz : (0 : ℤ) ≤ (k : ℤ) := by positivity
    have hk1z : (0 : ℤ) ≤ (k : ℤ) + 1 := by positivity
    have hloZ : (lo : ℤ) * ((k : ℤ) + 1) ≤ (m : ℤ) := by
      have := hlo
      zify at this
      linarith [this]
    have hhiZ : (m : ℤ) ≤ ((lo : ℤ) + 1) * ((k : ℤ) + 1) := by
      have := hhi
      zify at this
      linarith [this]
    have hupZ : (a : ℤ) * ((k : ℤ) + 1) ≤ (m : ℤ) + (k : ℤ) := by
      push_cast at hup
      linarith [hup]
    have hlowZ : (m : ℤ) ≤ (a : ℤ) * ((k : ℤ) + 1) + (k : ℤ) := by
      push_cast at hlow
      linarith [hlow]
    rcases List.mem_cons.mp hx with rfl | hx'
    · constructor
      · by_contra hcon
        push_neg at hcon
        have hc : (a : ℤ) + 1 ≤ (lo : ℤ) := by omega
        have hm1 : (a : ℤ) * ((k : ℤ) + 1) ≤ ((lo : ℤ) - 1) * ((k : ℤ) + 1) :=
          mul_le_mul_of_nonneg_right (by linarith) hk1z
        nlinarith
      · by_contra hcon
        push_neg at hcon
        have hc : (lo : ℤ) + 2 ≤ (a : ℤ) := by omega
        have hm1 : ((lo : ℤ) + 2) * ((k : ℤ) + 1) ≤ (a : ℤ) * ((k : ℤ) + 1) :=
          mul_le_mul_of_nonneg_right hc hk1z
        nlinarith
    · refine ih (m - a) lo ?_ ?_ x hx'
      · by_contra hcon
        push_neg at hcon
        have hc : ((m - a : ℕ) : ℤ) + 1 ≤ (lo : ℤ) * (k : ℤ) := by
          exact_mod_cast Nat.succ_le_of_lt hcon
        rw [Nat.cast_sub ham] at hc
        have hm1 : ((m : ℤ) - (lo : ℤ) * (k : ℤ) + 1) * ((k : ℤ) + 1) ≤
            (a : ℤ) * ((k : ℤ) + 1) :=
          mul_le_mul_of_nonneg_right (by linarith) hk1z
        have hm2 : (lo : ℤ) * ((k : ℤ) + 1) * (k : ℤ) ≤ (m : ℤ) * (k : ℤ) :=
          mul_le_mul_of_nonneg_right hloZ hkz
        nlinarith
      · by_contra hcon
        push_neg at hcon
        have hc : ((lo : ℤ) + 1) * (k : ℤ) + 1 ≤ ((m - a : ℕ) : ℤ) := by
          exact_mod_cast Nat.succ_le_of_lt hcon
        rw [Nat.cast_sub ham] at hc
        have hm1 : (a : ℤ) * ((k : ℤ) + 1) ≤
            ((m : ℤ) - ((lo : ℤ) + 1) * (k : ℤ) - 1) * ((k : ℤ) + 1) :=
          mul_le_mul_of_nonneg_right (by linarith) hk1z
        have hm2 : (m : ℤ) * (k : ℤ) ≤ ((lo : ℤ) + 1) * ((k : ℤ) + 1) * (k : ℤ) :=
          mul_le_mul_of_nonneg_right hhiZ hkz
        nlinarith

variable {σ : Type} [DecidableEq σ]

/-- The input rows, keyed by their (already transformed) stratum, with no
group assigned yet (`df["group"] = None`). -/
def initState (rows : List σ) : List (σ × Option ℕ) :=
  rows.map fun s => (s, none)

/-- One iteration body `df.loc[group_i_indices, "group"] = i`: the selected,
still ungrouped rows get group `i`. -/
def assignStep (i : ℕ) : List (σ × Option ℕ) → List Bool → List (σ × Option ℕ)
  | [], _ => []
  | r :: st, [] => r :: st
  | (s, g) :: st, b :: bs =>
    (s, if g = none ∧ b = true then some i else g) :: assignStep i st bs

/-- The loop `for i in range(n_splits)`, the random draw of each iteration
given by one selection mask per iteration. -/
def runSteps : ℕ → List (σ × Option ℕ) → List (List Bool) → List (σ × Option ℕ)
  | _, st, [] => st
  | i, st, sel :: rest => runSteps (i + 1) (assignStep i st sel) rest

/-- Rows of stratum `s` that are still ungrouped. -/
def ungroupedCount (s : σ) (st : List (σ × Option ℕ)) : ℕ :=
  st.countP fun r => decide (r.1 = s) && decide (r.2 = none)

/-- Selected rows of stratum `s`. -/
def selCount (s : σ) (st : List (σ × Option ℕ)) (sel : List Bool) : ℕ :=
  (st.zip sel).countP fun rb => decide (rb.1.1 = s) && rb.2

/-- Rows of stratum `s` carrying group label `i`. -/
def assignedCount (s : σ) (i : ℕ) (st : List (σ × Option ℕ)) : ℕ :=
  st.countP fun r => decide (r.1 = s) && decide (r.2 = some i)

/-- Validity of the random draw of iteration `i` out of `n`: one flag per
row, only ungrouped rows selected, and per stratum exactly
`round(m * (1 / (n - i)))` of its `m` ungrouped rows — the number of rows
`sample(frac=1/(n_splits - i))` draws inside the grouped `apply`. -/
def ValidSel (n i : ℕ) (st : List (σ × Option ℕ)) (sel : List Bool) : Prop :=
  sel.length = st.length ∧
  (∀ rb ∈ st.zip sel, rb.2 = true → rb.1.2 = none) ∧
  ∀ s ∈ st.map Prod.fst,
    selCount s st sel = pyRoundNat (ungroupedCount s st) (n - i)

/-- Validity of all the loop's draws. -/
def ValidSteps (n : ℕ) : ℕ → List (σ × Option ℕ) → List (List Bool) → Prop
  | _, _, [] => True
  | i, st, sel :: rest =>
    ValidSel n i st sel ∧ ValidSteps n (i + 1) (assignStep i st sel) rest

/-- The final assertion and return: `some` of the grouped rows when every
row got a group, `none` otherwise. -/
def extractGroups : List (σ × Option ℕ) → Option (List (σ × ℕ))
  | [] => some []
  | (s, some g) :: st => (extractGroups st).map fun t => (s, g) :: t
  | (_, none) :: _ => none

/-- The check `bucket_counts.min() >= n_splits`; pandas' min over an empty
series is NaN, whose comparison is false. -/
def bucketCheck (rows : List σ) (n_splits : ℕ) : Bool :=
  !rows.isEmpty && rows.all fun s => decide (n_splits ≤ rows.count s)

/-- Embeds `proportional_stratified_sample` (stratified_sampling.py lines
38-101) on rows keyed by their (already transformed) stratum: `hasGroupCol`
says whether the input frame already has a `group` column, and the random
draws of the loop are supplied as the selection masks `sels` (constrained by
`ValidSteps` in the theorems).  The three asserts become the three error
returns, in source order. -/
def proportional_stratified_sample (hasGroupCol : Bool) (rows : List σ)
    (n_splits : ℕ) (sels : List (List Bool)) :
    Except String (List (σ × ℕ)) :=
  if hasGroupCol then
    Except.error "input df already has a 'group' column." else
  if !(bucketCheck rows n_splits) then
    Except.error "At least one strata has too few datapoints" else
  match extractGroups (runSteps 0 (initState rows) sels) with
  | some out => Except.ok out
  | none => Except.error "Some datapoints were not assigned a group"

theorem ungroupedCount_cons (s sr : σ) (g : Option ℕ)
    (st : List (σ × Option ℕ)) :
    ungroupedCount s ((sr, g) :: st) =
      ungroupedCount s st + (if sr = s ∧ g = none then 1 else 0) := by
  by_cases h1 : sr = s <;> by_cases h2 : g = none <;>
    simp [ungroupedCount, List.countP_cons, h1, h2]

theorem selCount_cons (s sr : σ) (g : Option ℕ) (b : Bool)
    (st : List (σ × Option ℕ)) (bs : List Bool) :
    selCount s ((sr, g) :: st) (b :: bs) =
      selCount s st bs + (if sr = s ∧ b = true then 1 else 0) := by
  by_cases h1 : sr = s <;> cases b <;>
    simp [selCount, List.countP_cons, h1]

theorem assignedCount_cons (s sr : σ) (i : ℕ) (g : Option ℕ)
    (st : List (σ × Option ℕ)) :
    assignedCount s i ((sr, g) :: st) =
      assignedCount s i st + (if sr = s ∧ g = some i then 1 else 0) := by
  by_cases h1 : sr = s <;> by_cases h2 : g = some i <;>
    simp [assignedCount, List.countP_cons, h1, h2]

theorem assignStep_map_fst (i : ℕ) :
    ∀ (st : List (σ × Option ℕ)) (sel : List Bool),
      (assignStep i st sel).map Prod.fst = st.map Prod.fst := by
  intro st
  induction st with
  | nil => intro sel; rfl
  | cons r st ih =>
    intro sel
    cases sel with
    | nil => rfl
    | cons b bs =>
      obtain ⟨s, g⟩ := r
      simp [assignStep, ih bs]

theorem ungrouped_selCount (i : ℕ) (s : σ) :
    ∀ (st : List (σ × Option ℕ)) (sel : List Bool),
      (∀ rb ∈ st.zip sel, rb.2 = true → rb.1.2 = none) →
      selCount s st sel ≤ ungroupedCount s st ∧
      ungroupedCount s (assignStep i st sel) =
        ungroupedCount s st - selCount s st sel := by
  intro st
  induction st with
  | nil =>
    intro sel _
    exact ⟨Nat.le_refl 0, rfl⟩
  | cons r st ih =>
    intro sel h
    cases sel with
    | nil =>
      refine ⟨Nat.zero_le _, ?_⟩
      show ungroupedCount s (r :: st) = ungroupedCount s (r :: st) - 0
      omega
    | cons b bs =>
      obtain ⟨sr, g⟩ := r
      have hhead : b = true → g = none := by
        intro hb
        exact h ((sr, g), b) (by simp) hb
      obtain ⟨ih1, ih2⟩ := ih bs (fun rb hrb hb => h rb (by simp [hrb]) hb)
      have hstep : assignStep i ((sr, g) :: st) (b :: bs) =
          (sr, if g = none ∧ b = true then some i else g) ::
            assignStep i st bs := rfl
      rw [hstep, ungroupedCount_cons, ungroupedCount_cons, selCount_cons, ih2]
      by_cases h1 : sr = s <;> cases hb : b <;> cases hg : g <;>
        simp_all <;> omega

theorem assignedCount_assign_self (i : ℕ) (s : σ) :
    ∀ (st : List (σ × Option ℕ)) (sel : List Bool),
      (∀ rb ∈ st.zip sel, rb.2 = true → rb.1.2 = none) →
      assignedCount s i (assignStep i st sel) =
        assignedCount s i st + selCount s st sel := by
  intro st
  induction st with
  | nil => intro sel _; rfl
  | cons r st ih =>
    intro sel h
    cases sel with
    | nil =>
      show assignedCount s i (r :: st) = assignedCount s i (r :: st) + 0
      omega
    | cons b bs =>
      obtain ⟨sr, g⟩ := r
      have hhead : b = true → g = none := by
        intro hb
        exact h ((sr, g), b) (by simp) hb
      have ihb := ih bs (fun rb hrb hb => h rb (by simp [hrb]) hb)
      have hstep : assignStep i ((sr, g) :: st) (b :: bs) =
          (sr, if g = none ∧ b = true then some i else g) ::
            assignStep i st bs := rfl
      rw [hstep, assignedCount_cons, assignedCount_cons, selCount_cons, ihb]
      by_cases h1 : sr = s <;> cases hb : b <;> cases hg : g <;>
        simp_all <;> omega

theorem assignedCount_assign_other (i j : ℕ) (hne : j ≠ i) (s : σ) :
    ∀ (st : List (σ × Option ℕ)) (sel : List Bool),
      assignedCount s j (assignStep i st sel) = assignedCount s j st := by
  intro st
  induction st with
  | nil => intro sel; rfl
  | cons r st ih =>
    intro sel
    cases sel with
    | nil => rfl
    | cons b bs =>
      obtain ⟨sr, g⟩ := r
      have hstep : assignStep i ((sr, g) :: st) (b :: bs) =
          (sr, if g = none ∧ b = true then some i else g) ::
            assignStep i st bs := rfl
      rw [hstep, assignedCount_cons, assignedCount_cons, ih bs]
      by_cases h1 : sr = s <;> cases hb : b <;> cases hg : g <;>
        simp_all
      omega

theorem counts_of_not_mem (s : σ) :
    ∀ st : List (σ × Option ℕ), s ∉ st.map Prod.fst →
      ungroupedCount s st = 0 ∧ ∀ i, assignedCount s i st = 0 := by
  intro st
  induction st with
  | nil => intro _; exact ⟨rfl, fun _ => rfl⟩
  | cons r st ih =>
    intro h
    obtain ⟨sr, g⟩ := r
    have hne : sr ≠ s := by
      intro he
      exact h (by simp [he])
    have htail := ih (fun hmem => h (by simp [hmem]))
    rw [ungroupedCount_cons]
    refine ⟨by simp [hne, htail.1], fun i => ?_⟩
    rw [assignedCount_cons]
    simp [hne, htail.2 i]

theorem initState_map_fst (rows : List σ) :
    (initState rows).map Prod.fst = rows := by
  induction rows with
  | nil => rfl
  | cons r rows ih =>
    show ((r, (none : Option ℕ)).1) :: (initState rows).map Prod.fst = r :: rows
    rw [ih]

theorem ungroupedCount_init (s : σ) :
    ∀ rows : List σ, ungroupedCount s (initState rows) = rows.count s := by
  intro rows
  induction rows with
  | nil => rfl
  | cons r rows ih =>
    show ungroupedCount s ((r, none) :: initState rows) = (r :: rows).count s
    rw [ungroupedCount_cons, ih, List.count_cons]
    by_cases h1 : r = s <;> simp [h1]

theorem assignedCount_init (s : σ) (i : ℕ) :
    ∀ rows : List σ, assignedCount s i (initState rows) = 0 := by
  intro rows
  induction rows with
  | nil => rfl
  | cons r rows ih =>
    show assignedCount s i ((r, none) :: initState rows) = 0
    rw [assignedCount_cons, ih]
    simp

/-- Every assigned label in the state is below `i`. -/
def labelsBelow (i : ℕ) (st : List (σ × Option ℕ)) : Prop :=
  ∀ r ∈ st, ∀ g, r.2 = some g → g < i

theorem labelsBelow_init (i : ℕ) (rows : List σ) :
    labelsBelow i (initState rows) := by
  intro r hr g hg
  rcases List.mem_map.mp hr with ⟨x, _, rfl⟩
  cases hg

theorem labelsBelow_assign (i : ℕ) :
    ∀ (st : List (σ × Option ℕ)) (sel : List Bool),
      labelsBelow i st → labelsBelow (i + 1) (assignStep i st sel) := by
  intro st
  induction st with
  | nil => intro sel _ r hr; cases hr
  | cons r st ih =>
    intro sel h
    cases sel with
    | nil =>
      intro r' hr' g hg
      exact lt_of_lt_of_le (h r' hr' g hg) (Nat.le_succ i)
    | cons b bs =>
      obtain ⟨sr, g0⟩ := r
      intro r' hr' g hg
      have hstep : assignStep i ((sr, g0) :: st) (b :: bs) =
          (sr, if g0 = none ∧ b = true then some i else g0) ::
            assignStep i st bs := rfl
      rw [hstep] at hr'
      rcases List.mem_cons.mp hr' with rfl | hmem
      · by_cases hc : g0 = none ∧ b = true
        · rw [if_pos hc] at hg
          have hgi : some i = some g := hg
          have : i = g := by injection hgi
          omega
        · rw [if_neg hc] at hg
          have := h (sr, g0) (List.mem_cons_self _ _) g hg
          omega
      · have htail := ih bs (fun r hr g hg =>
          h r (List.mem_cons_of_mem _ hr) g hg)
        exact htail r' hmem g hg

theorem runSteps_map_fst :
    ∀ (sels : List (List Bool)) (i : ℕ) (st : List (σ × Option ℕ)),
      (runSteps i st sels).map Prod.fst = st.map Prod.fst := by
  intro sels
  induction sels with
  | nil => intro i st; rfl
  | cons sel rest ih =>
    intro i st
    show (runSteps (i + 1) (assignStep i st sel) rest).map Prod.fst = _
    rw [ih (i + 1) (assignStep i st sel), assignStep_map_fst]

theorem runSteps_assigned_low (s : σ) (j : ℕ) :
    ∀ (sels : List (List Bool)) (i : ℕ) (st : List (σ × Option ℕ)),
      j < i →
      assignedCount s j (runSteps i st sels) = assignedCount s j st := by
  intro sels
  induction sels with
  | nil => intro i st _; rfl
  | cons sel rest ih =>
    intro i st hji
    show assignedCount s j (runSteps (i + 1) (assignStep i st sel) rest) = _
    rw [ih (i + 1) (assignStep i st sel) (by omega),
      assignedCount_assign_other i j (by omega) s st sel]

theorem runSteps_labelsBelow (n : ℕ) :
    ∀ (sels : List (List Bool)) (i : ℕ) (st : List (σ × Option ℕ)),
      i + sels.length = n → labelsBelow i st →
      labelsBelow n (runSteps i st sels) := by
  intro sels
  induction sels with
  | nil =>
    intro i st hlen h
    have : i = n := by simpa using hlen
    subst this
    exact h
  | cons sel rest ih =>
    intro i st hlen h
    show labelsBelow n (runSteps (i + 1) (assignStep i st sel) rest)
    exact ih (i + 1) (assignStep i st sel) (by simp at hlen ⊢; omega)
      (labelsBelow_assign i st sel h)

theorem runSteps_total (n : ℕ) :
    ∀ (sels : List (List Bool)) (i : ℕ) (st : List (σ × Option ℕ)),
      i + sels.length = n → sels ≠ [] →
      ValidSteps n i st sels →
      ∀ s, ungroupedCount s (runSteps i st sels) = 0 := by
  intro sels
  induction sels with
  | nil => intro i st _ hne; exact absurd rfl hne
  | cons sel rest ih =>
    intro i st hlen _ hv s
    obtain ⟨hsel, hrest⟩ := hv
    obtain ⟨hslen, honly, hcnt⟩ := hsel
    obtain ⟨hle, heq⟩ := ungrouped_selCount i s st sel honly
    rcases eq_or_ne rest [] with rfl | hne
    · have hi : i + 1 = n := by simpa using hlen
      show ungroupedCount s (assignStep i st sel) = 0
      by_cases hs : s ∈ st.map Prod.fst
      · have hc := hcnt s hs
        have hden : n - i = 1 := by omega
        rw [hden, pyRoundNat_one] at hc
        rw [heq, hc]
        omega
      · have h0 := (counts_of_not_mem s st hs).1
        rw [heq]
        omega
    · exact ih (i + 1) (assignStep i st sel)
        (by simp at hlen ⊢; omega) hne hrest s

theorem runSteps_sizes (n : ℕ) :
    ∀ (sels : List (List Bool)) (i : ℕ) (st : List (σ × Option ℕ)),
      i + sels.length = n →
      ValidSteps n i st sels →
      ∀ s ∈ st.map Prod.fst, ∀ j, i ≤ j → j < n →
        assignedCount s j st = 0 →
        assignedCount s j (runSteps i st sels) ∈
          splitSizes (ungroupedCount s st) (n - i) := by
  intro sels
  induction sels with
  | nil =>
    intro i st hlen _ s _ j hij hjn _
    exact absurd hjn (by simp at hlen; omega)
  | cons sel rest ih =>
    intro i st hlen hv s hs j hij hjn h0
    obtain ⟨hsel, hrest⟩ := hv
    obtain ⟨hslen, honly, hcnt⟩ := hsel
    obtain ⟨hle, heq⟩ := ungrouped_selCount i s st sel honly
    have hin : i < n := by simp at hlen; omega
    have hni : n - i = (n - i - 1) + 1 := by omega
    have ha' : pyRoundNat (ungroupedCount s st) ((n - i - 1) + 1) =
        selCount s st sel := by
      rw [← hni]
      exact (hcnt s hs).symm
    rw [hni, splitSizes, ha']
    rcases eq_or_lt_of_le hij with rfl | hlt
    · have hfin : assignedCount s i
          (runSteps (i + 1) (assignStep i st sel) rest) =
          assignedCount s i (assignStep i st sel) :=
        runSteps_assigned_low s i rest (i + 1) (assignStep i st sel)
          (by omega)
      show assignedCount s i
          (runSteps (i + 1) (assignStep i st sel) rest) ∈ _
      rw [hfin, assignedCount_assign_self i s st sel honly, h0,
        Nat.zero_add]
      exact List.mem_cons_self _ _
    · have hmem := ih (i + 1) (assignStep i st sel)
        (by simp at hlen ⊢; omega) hrest s
        (by rw [assignStep_map_fst]; exact hs) j (by omega) hjn
        (by rw [assignedCount_assign_other i j (by omega) s st sel]
            exact h0)
      rw [heq] at hmem
      have hsub : n - (i + 1) = n - i - 1 := by omega
      rw [hsub] at hmem
      exact List.mem_cons_of_mem _ hmem

theorem extractGroups_of_total :
    ∀ st : List (σ × Option ℕ), (∀ s, ungroupedCount s st = 0) →
      extractGroups st = some (st.map fun r => (r.1, r.2.getD 0)) := by
  intro st
  induction st with
  | nil => intro _; rfl
  | cons r st ih =>
    intro h
    obtain ⟨sr, g⟩ := r
    cases g with
    | none =>
      exfalso
      have hc := h sr
      rw [ungroupedCount_cons] at hc
      simp at hc
    | some v =>
      have htail : ∀ s, ungroupedCount s st = 0 := by
        intro s
        have hc := h s
        rw [ungroupedCount_cons] at hc
        simpa using hc
      show (extractGroups st).map _ = _
      rw [ih htail]
      rfl

theorem assigned_some_of_total {st : List (σ × Option ℕ)}
    (h : ∀ s, ungroupedCount s st = 0) :
    ∀ r ∈ st, ∃ v, r.2 = some v := by
  intro r hr
  cases hrv : r.2 with
  | some v => exact ⟨v, rfl⟩
  | none =>
    exfalso
    have hpos : 0 < ungroupedCount r.1 st :=
      List.countP_pos.mpr ⟨r, hr, by simp [hrv]⟩
    rw [h r.1] at hpos
    exact absurd hpos (lt_irrefl 0)

/-- C2: on a valid run (constructor-time assertions pass, one selection mask
per iteration, each drawing the pandas sample sizes from the still ungrouped
rows), `proportional_stratified_sample` succeeds and returns the rows in
order, each with exactly one group label in `{0, ..., n_splits - 1}`, and
within every stratum any group receives between `⌊m/n_splits⌋` and
`⌊m/n_splits⌋ + 1` of the stratum's `m` rows — sizes balanced to within one
row. -/
theorem stratified_sample_partitions (rows : List σ) (n_splits : ℕ)
    (sels : List (List Bool)) (hn : 0 < n_splits)
    (hlen : sels.length = n_splits)
    (hcheck : bucketCheck rows n_splits = true)
    (hvalid : ValidSteps n_splits 0 (initState rows) sels) :
    ∃ out,
      proportional_stratified_sample false rows n_splits sels =
        Except.ok out ∧
      out.map Prod.fst = rows ∧
      (∀ rg ∈ out, rg.2 < n_splits) ∧
      ∀ s : σ, ∀ i, i < n_splits →
        rows.count s / n_splits ≤
          out.countP (fun rg => decide (rg.1 = s) && decide (rg.2 = i)) ∧
        out.countP (fun rg => decide (rg.1 = s) && decide (rg.2 = i)) ≤
          rows.count s / n_splits + 1 := by
  set final := runSteps 0 (initState rows) sels with hfinal
  have hne : sels ≠ [] := by
    intro h
    rw [h] at hlen
    simp at hlen
    omega
  have htotal : ∀ s, ungroupedCount s final = 0 :=
    runSteps_total n_splits sels 0 (initState rows) (by omega) hne hvalid
  have hext : extractGroups final =
      some (final.map fun r => (r.1, r.2.getD 0)) :=
    extractGroups_of_total final htotal
  refine ⟨final.map fun r => (r.1, r.2.getD 0), ?_, ?_, ?_, ?_⟩
  · unfold proportional_stratified_sample
    rw [← hfinal, hext]
    simp [hcheck]
  · rw [List.map_map]
    have hcomp : (Prod.fst ∘ fun r : σ × Option ℕ => (r.1, r.2.getD 0))
        = Prod.fst := rfl
    rw [hcomp, hfinal, runSteps_map_fst, initState_map_fst]
  · intro rg hrg
    rcases List.mem_map.mp hrg with ⟨r, hr, rfl⟩
    obtain ⟨v, hv⟩ := assigned_some_of_total htotal r hr
    have hlb : labelsBelow n_splits final :=
      runSteps_labelsBelow n_splits sels 0 (initState rows) (by omega)
        (labelsBelow_init 0 rows)
    have hvlt := hlb r hr v hv
    simpa [hv] using hvlt
  · intro s i hi
    have hcnt_eq : (final.map fun r => (r.1, r.2.getD 0)).countP
        (fun rg => decide (rg.1 = s) && decide (rg.2 = i)) =
        assignedCount s i final := by
      rw [List.countP_map]
      apply List.countP_congr
      intro r hr
      obtain ⟨v, hv⟩ := assigned_some_of_total htotal r hr
      simp [Function.comp, hv]
    rw [hcnt_eq]
    by_cases hs : s ∈ rows
    · have hsz := runSteps_sizes n_splits sels 0 (initState rows) (by omega)
        hvalid s (by rw [initState_map_fst]; exact hs) i (Nat.zero_le i) hi
        (assignedCount_init s i rows)
      rw [ungroupedCount_init, Nat.sub_zero] at hsz
      have hlo : (rows.count s / n_splits) * n_splits ≤ rows.count s :=
        Nat.div_mul_le_self _ _
      have hmod := Nat.div_add_mod (rows.count s) n_splits
      have hltm := Nat.mod_lt (rows.count s) hn
      have hhi : rows.count s ≤ (rows.count s / n_splits + 1) * n_splits := by
        calc rows.count s
            = n_splits * (rows.count s / n_splits) +
              rows.count s % n_splits := hmod.symm
          _ ≤ n_splits * (rows.count s / n_splits) + n_splits := by omega
          _ = (rows.count s / n_splits + 1) * n_splits := by ring
      exact splitSizes_bounds n_splits (rows.count s)
        (rows.count s / n_splits) hlo hhi _ hsz
    · have hs0 : rows.count s = 0 := by
        rw [List.count_eq_zero]
        exact hs
      have hnotmem : s ∉ final.map Prod.fst := by
        rw [hfinal, runSteps_map_fst, initState_map_fst]
        exact hs
      have h0 := (counts_of_not_mem s final hnotmem).2 i
      rw [h0, hs0, Nat.zero_div]
      omega

/-- Witness for C2: two rows of a single stratum split into two groups. -/
theorem stratified_sample_partitions_witness :
    ∃ out, proportional_stratified_sample false [0, 0] 2
        [[true, false], [false, true]] = Except.ok out ∧
      out.map Prod.fst = [0, 0] ∧
      (∀ rg ∈ out, rg.2 < 2) ∧
      ∀ s : ℕ, ∀ i, i < 2 →
        [0, 0].count s / 2 ≤
          out.countP (fun rg => decide (rg.1 = s) && decide (rg.2 = i)) ∧
        out.countP (fun rg => decide (rg.1 = s) && decide (rg.2 = i)) ≤
          [0, 0].count s / 2 + 1 :=
  stratified_sample_partitions [0, 0] 2 [[true, false], [false, true]]
    (by decide) (by decide) (by decide)
    ⟨⟨by decide, by decide, by decide⟩,
     ⟨by decide, by decide, by decide⟩, trivial⟩

/-- C6: whenever some stratum holds fewer than `n_splits` rows, the function
hits the bucket-size assertion and raises, before any group is assigned. -/
theorem stratified_sample_small_stratum_asserts (hasGroupCol : Bool)
    (rows : List σ) (n_splits : ℕ) (sels : List (List Bool))
    (hG : hasGroupCol = false) (s : σ) (hs : s ∈ rows)
    (hcount : rows.count s < n_splits) :
    proportional_stratified_sample hasGroupCol rows n_splits sels =
      Except.error "At least one strata has too few datapoints" := by
  subst hG
  have hbc : bucketCheck rows n_splits = false := by
    unfold bucketCheck
    have hne : rows.isEmpty = false := by
      cases rows with
      | nil => cases hs
      | cons a l => rfl
    have hall : rows.all (fun x => decide (n_splits ≤ rows.count x))
        = false := by
      rw [List.all_eq_false]
      exact ⟨s, hs, by simp; omega⟩
    rw [hne, hall]
    rfl
  unfold proportional_stratified_sample
  rw [hbc]
  simp

/-- Witness for C6: a stratum with one row cannot be split in two. -/
theorem stratified_sample_small_stratum_asserts_witness :
    proportional_stratified_sample false [0, 0, 1] 2
        ([] : List (List Bool)) =
      Except.error "At least one strata has too few datapoints" :=
  stratified_sample_small_stratum_asserts false [0, 0, 1] 2 [] rfl 1
    (by decide) (by decide)

/-- Models pandas column assignment `df[c] = ...` at schema level: a new
column is appended, an existing one is overwritten in place. -/
def setCol (schema : List String) (c : String) : List String :=
  if c ∈ schema then schema else schema ++ [c]

/-- Column-level model of `proportional_stratified_sample`'s frame effects
(stratified_sampling.py lines 63-101): the `df[col + "_stratify"] = ...`
assignments mutate the caller's object; `df = df.reset_index(drop=True)`
rebinds the local name to a copy, so `df["group"] = None` and the final
`df.drop(columns=...)` touch only that copy.  Returns (columns of the
caller's dataframe after the call, columns of the returned dataframe). -/
def stratifiedSampleColumns (cols stratify_cols : List String) :
    List String × List String :=
  let callerCols := stratify_cols.foldl
    (fun acc col => setCol acc (col ++ "_stratify")) cols
  let localCols := setCol callerCols "group"
  let returnedCols := localCols.filter
    (fun c => decide (c ∉ stratify_cols.map (fun x => x ++ "_stratify")))
  (callerCols, returnedCols)

theorem setCol_mem_mono {x : String} {acc : List String} (c : String)
    (h : x ∈ acc) : x ∈ setCol acc c := by
  unfold setCol
  split
  · exact h
  · exact List.mem_append_left _ h

theorem setCol_mem_self (acc : List String) (c : String) :
    c ∈ setCol acc c := by
  unfold setCol
  split
  · assumption
  · exact List.mem_append_right _ (List.mem_singleton.mpr rfl)

theorem foldl_setCol_mem_mono {x : String} :
    ∀ (l : List String) (acc : List String), x ∈ acc →
      x ∈ l.foldl (fun a col => setCol a (col ++ "_stratify")) acc := by
  intro l
  induction l with
  | nil => intro acc h; exact h
  | cons y l ih =>
    intro acc h
    exact ih (setCol acc (y ++ "_stratify")) (setCol_mem_mono _ h)

theorem foldl_setCol_mem {c : String} :
    ∀ (l : List String) (acc : List String), c ∈ l →
      (c ++ "_stratify") ∈
        l.foldl (fun a col => setCol a (col ++ "_stratify")) acc := by
  intro l
  induction l with
  | nil => intro acc h; cases h
  | cons y l ih =>
    intro acc h
    rcases List.mem_cons.mp h with rfl | hmem
    · exact foldl_setCol_mem_mono l _ (setCol_mem_self acc _)
    · exact ih _ hmem

theorem group_ne_suffixed (c : String) : "group" ≠ c ++ "_stratify" := by
  intro h
  have hlen := congrArg String.length h
  rw [String.length_append] at hlen
  have h1 : ("group").length = 5 := rfl
  have h2 : ("_stratify").length = 9 := rfl
  omega

/-- C10: the function mutates its input frame: every stratify column `col`
gains a sibling `col ++ "_stratify"` on the caller's dataframe object, which
remains there after the call (only the internal copy drops it); the returned
dataframe has the `group` column and none of the added `_stratify` columns. -/
theorem stratified_sample_frame_effect (cols stratify_cols : List String) :
    (∀ c ∈ stratify_cols,
      (c ++ "_stratify") ∈ (stratifiedSampleColumns cols stratify_cols).1) ∧
    "group" ∈ (stratifiedSampleColumns cols stratify_cols).2 ∧
    ∀ c ∈ stratify_cols,
      (c ++ "_stratify") ∉ (stratifiedSampleColumns cols stratify_cols).2 := by
  refine ⟨?_, ?_, ?_⟩
  · intro c hc
    exact foldl_setCol_mem stratify_cols cols hc
  · show "group" ∈ List.filter _ _
    rw [List.mem_filter]
    constructor
    · exact setCol_mem_self _ "group"
    · rw [decide_eq_true_eq]
      intro hmem
      rcases List.mem_map.mp hmem with ⟨c, _, hc⟩
      exact group_ne_suffixed c hc.symm
  · intro c hc hmem
    have hmem' : (c ++ "_stratify") ∈ List.filter
        (fun x => decide (x ∉ stratify_cols.map (fun y => y ++ "_stratify")))
        (setCol (stratify_cols.foldl
          (fun a col => setCol a (col ++ "_stratify")) cols) "group") := hmem
    rw [List.mem_filter, decide_eq_true_eq] at hmem'
    exact hmem'.2 (List.mem_map.mpr ⟨c, hc, rfl⟩)

end StratifiedSampling
